import Mathlib

/-!
# Verification of `parameter-sweeper.py`

A shallow embedding of the sweep-generation, config-merge and
result-annotation engine of `src/parameter-sweeper.py`, together with
proofs of the specified properties.

Conventions of the embedding:

* A configparser configuration is an ordered association list
  `List (String × List (String × String))` from section name to an ordered
  association list from option key to string value.  `configparser`
  normalises option keys with `optionxform` (lowercasing) both when a file
  is read and when an option is set; section names are never transformed.
  Strict parsing (the default used by `ConfigParser.read`) rejects
  duplicate sections and duplicate (post-transform) options inside one
  file, so raw inputs are handled section-by-section with a later-wins
  fold, which coincides with the parser on all strictly parseable files.
* A pandas `DataFrame` read from the `|`-separated result file is modelled
  column-wise: an ordered list of named columns, each column a list of
  cells, a cell being `Option String` (`none` = missing/NaN).
* The operating system is modelled only as far as the script touches it:
  existence booleans for the two input files, an `Option DF` for the
  single result-table file, and explicit fields tracking the temporary
  file's handle and directory entry.
-/

namespace ParameterSweeper

/-- Generic first-match association lookup used for configuration sections
and option keys (configparser keeps insertion order and keys unique, so
first match is the match). -/
def assocFind {α : Type} : List (String × α) → String → Option α
  | [], _ => none
  | p :: rest, s => if p.1 = s then some p.2 else assocFind rest s

@[simp] theorem assocFind_nil {α : Type} (s : String) :
    assocFind ([] : List (String × α)) s = none := rfl

@[simp] theorem assocFind_cons {α : Type} (p : String × α)
    (rest : List (String × α)) (s : String) :
    assocFind (p :: rest) s = if p.1 = s then some p.2 else assocFind rest s := rfl

/-! ## Sweep generation: `product_params` (source lines 18–19)

`product_params(inp)` returns
`(dict(zip(inp.keys(), itervalues)) for itervalues in itertools.product(*inp.values()))`.
`itertools.product` enumerates tuples with the rightmost (= last declared)
axis varying fastest; `dict(zip(keys, tuple))` rebuilds a mapping assigning
the i-th key the i-th component.  A mapping is embedded as an ordered
association list, so a combination is a `List (String × String)` whose keys
are exactly the spec's keys in declaration order. -/
def product_params : List (String × List String) → List (List (String × String))
  | [] => [[]]
  | (k, vs) :: rest =>
      vs.flatMap fun v => (product_params rest).map fun c => (k, v) :: c

@[simp] theorem product_params_nil : product_params [] = [[]] := rfl

@[simp] theorem product_params_cons (k : String) (vs : List String)
    (rest : List (String × List String)) :
    product_params ((k, vs) :: rest) =
      vs.flatMap (fun v => (product_params rest).map fun c => (k, v) :: c) := rfl

theorem sum_map_const_nat {α : Type} (l : List α) (n : Nat) :
    (l.map fun _ => n).sum = l.length * n := by
  induction l with
  | nil => simp
  | cons a t ih => simp [ih, Nat.succ_mul, Nat.add_comm]

theorem product_params_length (spec : List (String × List String)) :
    (product_params spec).length = (spec.map fun p => p.2.length).prod := by
  induction spec with
  | nil => rfl
  | cons p rest ih =>
      obtain ⟨k, vs⟩ := p
      have h1 : (List.length ∘ fun v : String =>
          List.map (fun c => (k, v) :: c) (product_params rest))
          = fun _ : String => (product_params rest).length := by
        funext v; simp
      simp only [product_params_cons, List.length_flatMap, h1,
        List.map_cons, List.prod_cons]
      rw [sum_map_const_nat, ih]

theorem product_params_keys (spec : List (String × List String))
    (c : List (String × String)) (hc : c ∈ product_params spec) :
    c.map Prod.fst = spec.map Prod.fst := by
  induction spec generalizing c with
  | nil => simp_all
  | cons p rest ih =>
      obtain ⟨k, vs⟩ := p
      simp only [product_params_cons, List.mem_flatMap, List.mem_map] at hc
      obtain ⟨v, _, c', hc', rfl⟩ := hc
      simp [ih c' hc']

theorem product_params_nodup (spec : List (String × List String))
    (h : ∀ p ∈ spec, p.2.Nodup) : (product_params spec).Nodup := by
  induction spec with
  | nil => simp
  | cons p rest ih =>
      obtain ⟨k, vs⟩ := p
      have hvs : vs.Nodup := h (k, vs) (by simp)
      have hrest : (product_params rest).Nodup :=
        ih fun q hq => h q (List.mem_cons_of_mem _ hq)
      simp only [product_params_cons]
      refine List.nodup_flatMap.2 ⟨?_, ?_⟩
      · intro v _
        refine hrest.map ?_
        intro c₁ c₂ h12
        simpa using congrArg List.tail h12
      · refine hvs.imp ?_
        intro v₁ v₂ hne x hx₁ hx₂
        simp only [Function.onFun, List.mem_map] at hx₁ hx₂
        obtain ⟨c₁, _, rfl⟩ := hx₁
        obtain ⟨c₂, _, h12⟩ := hx₂
        exact hne (by simpa using congrArg List.head? h12.symm)

/-- Appending one more parameter to the end of the spec nests it innermost:
the last-declared parameter varies fastest. -/
theorem product_params_snoc (init : List (String × List String))
    (k : String) (vs : List String) :
    product_params (init ++ [(k, vs)]) =
      (product_params init).flatMap fun c => vs.map fun v => c ++ [(k, v)] := by
  induction init with
  | nil =>
      simp only [List.nil_append, product_params_cons, product_params_nil,
        List.map_cons, List.map_nil]
      induction vs with
      | nil => rfl
      | cons v t iht => simp_all
  | cons p rest ih =>
      obtain ⟨k', vs'⟩ := p
      simp only [List.cons_append, product_params_cons, ih,
        List.flatMap_assoc, List.flatMap_map, List.map_flatMap,
        List.map_map, List.cons_append]
      simp only [Function.comp_def]

/-! ## Configurations and the merge step

`configparser.ConfigParser` applies `optionxform` (which defaults to
`str.lower`) to every option key, both when reading (`read`, `read_dict`)
and when setting (`parser[sect][key] = value` calls
`RawConfigParser.set`, which stores under `self.optionxform(option)`), and
when testing membership (`key in parser[sect]`).  Section names are used
verbatim.  `configparser_to_dict` (source lines 22–28) copies the parser's
sections and (already transformed) keys unchanged, so on our
representation it is the identity and is not modelled separately. -/

/-- The default `optionxform` of `configparser`, `str.lower`: lowercase
every character (written as a map over the string's character list, which
is what `String.toLower` computes, in a kernel-reducible form). -/
def optionxform (s : String) : String := ⟨s.data.map Char.toLower⟩

/-- Store `value` under (already transformed) key `k` in one section:
replace in place if the key is present, else append (configparser keeps
insertion order). -/
def setOption (sec : List (String × String)) (k v : String) :
    List (String × String) :=
  if sec.any fun p => p.1 = k then
    sec.map fun p => if p.1 = k then (k, v) else p
  else sec ++ [(k, v)]

/-- Reading one raw section: keys are passed through `optionxform`, later
duplicates overwrite (strict parsing would reject such duplicates, so on
every strictly parseable file this agrees with `configparser`). -/
def parseSection (raw : List (String × String)) : List (String × String) :=
  raw.foldl (fun acc p => setOption acc (optionxform p.1) p.2) []

/-- Reading a whole raw configuration file: section names verbatim, each
section's keys transformed. -/
def parseConfig (raw : List (String × List (String × String))) :
    List (String × List (String × String)) :=
  raw.map fun s => (s.1, parseSection s.2)

/-- Model of `config[sect][key]`: exact-match section lookup, then option lookup
under `optionxform key`. -/
def getOption (c : List (String × List (String × String)))
    (sect key : String) : Option String :=
  (assocFind c sect).bind fun sec => assocFind sec (optionxform key)

/-- Source line 90: `section in base_config and key in base_config[section]`
(the diagnostic "overridden" flag; option membership goes through
`optionxform`). -/
def is_base_key_overridden (base : List (String × List (String × String)))
    (sect key : String) : Bool :=
  match assocFind base sect with
  | none => false
  | some sec => sec.any fun p => p.1 = optionxform key

/-- Python's `value.split(',')`: split on every comma, no trimming
(written over the character list so it computes in the kernel). -/
def split_commas (s : String) : List String :=
  (s.data.splitOn ',').map fun cs => ⟨cs⟩

/-- Source lines 80–96: only the section named exactly `benchmark` of the
sweep configuration is used; each of its keys maps to its value split on
`,`.  All other sections are ignored. -/
def extract_sweep_params (sweepCfg : List (String × List (String × String))) :
    List (String × List String) :=
  ((assocFind sweepCfg "benchmark").getD []).map fun p => (p.1, split_commas p.2)

/-- Source lines 112–113: `if 'benchmark' not in merged_config.sections():
merged_config['benchmark'] = {}`. -/
def ensure_benchmark (c : List (String × List (String × String))) :
    List (String × List (String × String)) :=
  if c.any fun s => s.1 = "benchmark" then c else c ++ [("benchmark", [])]

/-- Source line 117: `merged_config['benchmark'][key] = value`; the parser
stores the option under `optionxform key`. -/
def set_benchmark_option (c : List (String × List (String × String)))
    (k v : String) : List (String × List (String × String)) :=
  c.map fun s => if s.1 = "benchmark" then (s.1, setOption s.2 (optionxform k) v) else s

/-- Source lines 109–117: the merged configuration.  `read_dict` re-reads
`base_config_dict` (transforming keys like any read), the `benchmark`
section is created if absent, then every combination entry is set in it. -/
def merge_config (base_dict : List (String × List (String × String)))
    (params : List (String × String)) :
    List (String × List (String × String)) :=
  params.foldl (fun m p => set_benchmark_option m p.1 p.2)
    (ensure_benchmark (parseConfig base_dict))

/-! ### Lemmas about the merge step -/

theorem assocFind_setOption_self (sec : List (String × String)) (k v : String) :
    assocFind (setOption sec k v) k = some v := by
  unfold setOption
  by_cases h : sec.any fun p => p.1 = k
  · simp only [h, if_true]
    induction sec with
    | nil => simp at h
    | cons p rest ih =>
        by_cases hp : p.1 = k
        · simp [hp]
        · have : rest.any (fun p => p.1 = k) := by
            simpa [hp] using h
          simpa [hp] using ih this
  · simp only [h, if_false]
    induction sec with
    | nil => simp
    | cons p rest ih =>
        have hp : ¬ p.1 = k := by
          intro hk
          exact h (by simp [hk])
        have : ¬ rest.any (fun p => p.1 = k) := by
          intro hk
          exact h (by simp [List.any_cons, hk])
        simpa [hp] using ih this

theorem assocFind_append {α : Type} (l₁ l₂ : List (String × α)) (s : String) :
    assocFind (l₁ ++ l₂) s = (assocFind l₁ s).or (assocFind l₂ s) := by
  induction l₁ with
  | nil => simp
  | cons p rest ih =>
      by_cases hp : p.1 = s <;> simp [hp, ih]

theorem assocFind_any_iff {α : Type} (l : List (String × α)) (s : String) :
    (l.any fun p => p.1 = s) = true ↔ ∃ v, assocFind l s = some v := by
  induction l with
  | nil => simp
  | cons p rest ih =>
      by_cases hp : p.1 = s <;> simp [hp, ih]

theorem assocFind_map_replace (sec : List (String × String)) (k v k' : String)
    (h : k' ≠ k) :
    assocFind (sec.map fun p => if p.1 = k then (k, v) else p) k' =
      assocFind sec k' := by
  have hne : ¬ k = k' := fun hh => h hh.symm
  induction sec with
  | nil => rfl
  | cons p rest ih =>
      simp only [List.map_cons]
      by_cases hp : p.1 = k
      · rw [if_pos hp]
        simp only [assocFind_cons]
        rw [if_neg hne, if_neg (fun hh => hne (hp.symm.trans hh))]
        exact ih
      · rw [if_neg hp]
        simp only [assocFind_cons]
        by_cases hp' : p.1 = k'
        · rw [if_pos hp', if_pos hp']
        · rw [if_neg hp', if_neg hp']
          exact ih

theorem assocFind_setOption_other (sec : List (String × String)) (k v k' : String)
    (h : k' ≠ k) : assocFind (setOption sec k v) k' = assocFind sec k' := by
  have hne : ¬ k = k' := fun hh => h hh.symm
  unfold setOption
  by_cases hmem : sec.any fun p => p.1 = k
  · simp only [hmem, if_true]
    exact assocFind_map_replace sec k v k' h
  · simp [hmem, assocFind_append, hne]

theorem assocFind_set_benchmark_option
    (c : List (String × List (String × String))) (k v : String) :
    assocFind (set_benchmark_option c k v) "benchmark" =
      (assocFind c "benchmark").map fun sec => setOption sec (optionxform k) v := by
  induction c with
  | nil => rfl
  | cons s rest ih =>
      by_cases hs : s.1 = "benchmark"
      · simp [set_benchmark_option, hs]
      · simpa [set_benchmark_option, hs] using ih

theorem assocFind_set_benchmark_option_other
    (c : List (String × List (String × String))) (k v sect : String)
    (hs : sect ≠ "benchmark") :
    assocFind (set_benchmark_option c k v) sect = assocFind c sect := by
  induction c with
  | nil => rfl
  | cons s rest ih =>
      simp only [set_benchmark_option, List.map_cons]
      by_cases h1 : s.1 = "benchmark"
      · rw [if_pos h1]
        simp only [assocFind_cons]
        have h2 : ¬ s.1 = sect := fun hh => hs (hh.symm.trans h1)
        rw [if_neg h2, if_neg h2]
        simpa [set_benchmark_option] using ih
      · rw [if_neg h1]
        simp only [assocFind_cons]
        by_cases h2 : s.1 = sect
        · rw [if_pos h2, if_pos h2]
        · rw [if_neg h2, if_neg h2]
          simpa [set_benchmark_option] using ih

theorem assocFind_ensure_benchmark (c : List (String × List (String × String))) :
    assocFind (ensure_benchmark c) "benchmark" =
      some ((assocFind c "benchmark").getD []) := by
  unfold ensure_benchmark
  by_cases h : c.any fun s => s.1 = "benchmark"
  · simp only [h, if_true]
    induction c with
    | nil => simp at h
    | cons s rest ih =>
        by_cases hs : s.1 = "benchmark"
        · simp [hs]
        · have : rest.any (fun s => s.1 = "benchmark") := by simpa [hs] using h
          simpa [hs] using ih this
  · simp only [h, if_false]
    induction c with
    | nil => simp
    | cons s rest ih =>
        have hs : ¬ s.1 = "benchmark" := by
          intro hk; exact h (by simp [hk])
        have : ¬ rest.any (fun s => s.1 = "benchmark") := by
          intro hk; exact h (by simp [List.any_cons, hk])
        simpa [hs] using ih this

theorem assocFind_ensure_benchmark_other
    (c : List (String × List (String × String))) (sect : String)
    (hs : sect ≠ "benchmark") :
    assocFind (ensure_benchmark c) sect = assocFind c sect := by
  have hne : ¬ ("benchmark" : String) = sect := fun hh => hs hh.symm
  unfold ensure_benchmark
  by_cases h : c.any fun s => s.1 = "benchmark"
  · simp [h]
  · simp [h, assocFind_append, hne]

/-- Folding the per-combination sets over the whole configuration acts on
the `benchmark` section only, exactly as the section-level fold. -/
theorem assocFind_merge_fold (m : List (String × List (String × String)))
    (params : List (String × String)) :
    assocFind (params.foldl (fun m p => set_benchmark_option m p.1 p.2) m)
        "benchmark" =
      (assocFind m "benchmark").map fun sec =>
        params.foldl (fun s p => setOption s (optionxform p.1) p.2) sec := by
  induction params generalizing m with
  | nil =>
      simp only [List.foldl_nil]
      cases assocFind m "benchmark" <;> rfl
  | cons p rest ih =>
      simp only [List.foldl_cons, ih, assocFind_set_benchmark_option]
      cases assocFind m "benchmark" <;> rfl

theorem assocFind_merge_fold_other (m : List (String × List (String × String)))
    (params : List (String × String)) (sect : String) (hs : sect ≠ "benchmark") :
    assocFind (params.foldl (fun m p => set_benchmark_option m p.1 p.2) m) sect =
      assocFind m sect := by
  induction params generalizing m with
  | nil => rfl
  | cons p rest ih =>
      simp only [List.foldl_cons, ih,
        assocFind_set_benchmark_option_other _ _ _ _ hs]

theorem assocFind_foldl_setOption_not_mem (sec : List (String × String))
    (params : List (String × String)) (k : String)
    (hk : ∀ p ∈ params, optionxform p.1 ≠ k) :
    assocFind
        (params.foldl (fun s p => setOption s (optionxform p.1) p.2) sec) k =
      assocFind sec k := by
  induction params generalizing sec with
  | nil => rfl
  | cons p rest ih =>
      simp only [List.foldl_cons]
      rw [ih _ fun q hq => hk q (List.mem_cons_of_mem _ hq)]
      exact assocFind_setOption_other _ _ _ _
        fun hh => hk p (List.mem_cons_self _ _) hh.symm

theorem assocFind_foldl_setOption_mem (sec : List (String × String))
    (params : List (String × String)) (k v : String)
    (hmem : (k, v) ∈ params)
    (hnd : (params.map fun p => optionxform p.1).Nodup) :
    assocFind
        (params.foldl (fun s p => setOption s (optionxform p.1) p.2) sec)
        (optionxform k) = some v := by
  induction params generalizing sec with
  | nil => simp at hmem
  | cons p rest ih =>
      simp only [List.map_cons, List.nodup_cons] at hnd
      rcases List.mem_cons.1 hmem with h | h
      · subst h
        simp only [List.foldl_cons]
        rw [assocFind_foldl_setOption_not_mem _ rest (optionxform k)
            fun q hq heq =>
              hnd.1 (heq ▸ List.mem_map_of_mem (fun p => optionxform p.1) hq)]
        exact assocFind_setOption_self _ _ _
      · exact ih _ h hnd.2

/-! ### Parsed configurations

`base_config_dict` is produced by `configparser` followed by
`configparser_to_dict`, so each of its sections has `optionxform`-fixed,
pairwise-distinct keys; re-reading such a configuration (`read_dict`,
modelled by `parseConfig`) reproduces it unchanged. -/

def SectionParsed (sec : List (String × String)) : Prop :=
  (∀ p ∈ sec, optionxform p.1 = p.1) ∧ (sec.map Prod.fst).Nodup

def ConfigParsed (c : List (String × List (String × String))) : Prop :=
  ∀ s ∈ c, SectionParsed s.2

theorem foldl_setOption_fresh (sec acc : List (String × String))
    (hlow : ∀ p ∈ sec, optionxform p.1 = p.1)
    (hnd : (sec.map Prod.fst).Nodup)
    (hacc : ∀ p ∈ sec, ¬ (acc.any fun q => q.1 = p.1)) :
    sec.foldl (fun a p => setOption a (optionxform p.1) p.2) acc = acc ++ sec := by
  induction sec generalizing acc with
  | nil => simp
  | cons p rest ih =>
      simp only [List.foldl_cons]
      have hp : optionxform p.1 = p.1 := hlow p (List.mem_cons_self _ _)
      have hfresh : ¬ (acc.any fun q => q.1 = p.1) :=
        hacc p (List.mem_cons_self _ _)
      have hstep : setOption acc (optionxform p.1) p.2 = acc ++ [p] := by
        rw [hp]
        unfold setOption
        rw [if_neg hfresh]
      rw [hstep]
      simp only [List.map_cons, List.nodup_cons] at hnd
      rw [ih (acc ++ [p]) (fun q hq => hlow q (List.mem_cons_of_mem _ hq)) hnd.2 ?_]
      · simp
      · intro q hq hany
        simp only [List.any_append, Bool.or_eq_true, List.any_cons, List.any_nil,
          Bool.or_false, decide_eq_true_eq] at hany
        rcases hany with hl | hr
        · exact hacc q (List.mem_cons_of_mem _ hq) (by simpa using hl)
        · exact hnd.1 (hr ▸ List.mem_map_of_mem Prod.fst hq)

theorem parseSection_parsed (sec : List (String × String))
    (h : SectionParsed sec) : parseSection sec = sec := by
  have := foldl_setOption_fresh sec [] h.1 h.2 (by simp)
  simpa [parseSection] using this

theorem parseConfig_parsed (c : List (String × List (String × String)))
    (h : ConfigParsed c) : parseConfig c = c := by
  unfold parseConfig
  induction c with
  | nil => rfl
  | cons s rest ih =>
      simp only [List.map_cons]
      rw [parseSection_parsed s.2 (h s (List.mem_cons_self _ _))]
      rw [ih fun q hq => h q (List.mem_cons_of_mem _ hq)]

/-! ## Result annotation: `add_parameters_to_psv` (source lines 31–47)

The `|`-separated result table loaded by `pd.read_csv` is modelled
column-wise, as pandas itself stores it: an ordered list of named columns,
every column holding `nrows` cells, a cell being `none` for a missing
value (NaN) and `some s` otherwise.

The body of the loop over `params.items()` is, per `(column_name, value)`:
`df[column_name] = df[column_name].fillna(value)` when the column exists
(fill only currently-missing cells), else `df[column_name] = value`
(create the column as the scalar broadcast over all rows). -/

structure DF where
  nrows : Nat
  cols : List (String × List (Option String))
  deriving DecidableEq, Repr

/-- Model of `series.fillna(value)`. -/
def fillna (col : List (Option String)) (v : String) : List (Option String) :=
  col.map fun cell => some (cell.getD v)

/-- One step of the annotation loop. -/
def addParam (df : DF) (p : String × String) : DF :=
  if df.cols.any fun q => q.1 = p.1 then
    { df with cols := df.cols.map fun q => if q.1 = p.1 then (q.1, fillna q.2 p.2) else q }
  else
    { df with cols := df.cols ++ [(p.1, List.replicate df.nrows (some p.2))] }

/-- The core of `add_parameters_to_psv` after the file has been read: the fold of the
annotation loop over the parameter mapping (the read/write of the file and
the missing-file guard are modelled separately in the run driver). -/
def add_parameters_to_psv (df : DF) (params : List (String × String)) : DF :=
  params.foldl addParam df

/-- The cell of column `c` at row `r`: `none` when the column (or row)
does not exist, otherwise `some` the cell (which is itself `none` when
missing). -/
def getCell (df : DF) (c : String) (r : Nat) : Option (Option String) :=
  (assocFind df.cols c).bind fun col => col.get? r

@[simp] theorem nrows_addParam (df : DF) (p : String × String) :
    (addParam df p).nrows = df.nrows := by
  unfold addParam
  by_cases h : df.cols.any fun q => q.1 = p.1 <;> simp [h]

@[simp] theorem nrows_add_parameters_to_psv (df : DF)
    (params : List (String × String)) :
    (add_parameters_to_psv df params).nrows = df.nrows := by
  unfold add_parameters_to_psv
  induction params generalizing df with
  | nil => rfl
  | cons p rest ih => simp [ih]

theorem cols_addParam (df : DF) (p : String × String) :
    (addParam df p).cols =
      if df.cols.any fun q => q.1 = p.1 then
        df.cols.map fun q => if q.1 = p.1 then (q.1, fillna q.2 p.2) else q
      else df.cols ++ [(p.1, List.replicate df.nrows (some p.2))] := by
  unfold addParam
  by_cases h : df.cols.any fun q => q.1 = p.1 <;> simp [h]

theorem assocFind_map_update {α : Type} (l : List (String × α)) (k : String)
    (f : α → α) (c : String) (hc : c ≠ k) :
    assocFind (l.map fun q => if q.1 = k then (q.1, f q.2) else q) c =
      assocFind l c := by
  induction l with
  | nil => rfl
  | cons q rest ih =>
      by_cases hq : q.1 = k
      · have hne : ¬ q.1 = c := fun hh => hc (hh.symm.trans hq)
        simp only [List.map_cons, if_pos hq, assocFind_cons, hne, if_false]
        exact ih
      · simp only [List.map_cons, if_neg hq, assocFind_cons]
        by_cases hqc : q.1 = c
        · rw [if_pos hqc, if_pos hqc]
        · rw [if_neg hqc, if_neg hqc]
          exact ih

theorem assocFind_map_update_self {α : Type} (l : List (String × α))
    (k : String) (f : α → α) :
    assocFind (l.map fun q => if q.1 = k then (q.1, f q.2) else q) k =
      (assocFind l k).map f := by
  induction l with
  | nil => rfl
  | cons q rest ih =>
      by_cases hq : q.1 = k
      · simp [hq]
      · simp [hq, ih]

theorem assocFind_eq_none_of_not_any {α : Type} (l : List (String × α))
    (s : String) (h : ¬ (l.any fun p => p.1 = s)) : assocFind l s = none := by
  cases hfind : assocFind l s with
  | none => rfl
  | some v => exact absurd ((assocFind_any_iff _ _).2 ⟨v, hfind⟩) h

theorem assocFind_addParam_self_fill (df : DF) (p : String × String)
    (col : List (Option String)) (hcol : assocFind df.cols p.1 = some col) :
    assocFind (addParam df p).cols p.1 = some (fillna col p.2) := by
  rw [cols_addParam]
  have h : df.cols.any fun q => q.1 = p.1 :=
    (assocFind_any_iff _ _).2 ⟨col, hcol⟩
  rw [if_pos h]
  have h2 := assocFind_map_update_self df.cols p.1 (fun x => fillna x p.2)
  rw [hcol] at h2
  simpa using h2

theorem assocFind_addParam_self_new (df : DF) (p : String × String)
    (hnone : assocFind df.cols p.1 = none) :
    assocFind (addParam df p).cols p.1 =
      some (List.replicate df.nrows (some p.2)) := by
  rw [cols_addParam]
  have h : ¬ (df.cols.any fun q => q.1 = p.1) := by
    intro h
    obtain ⟨col, hcol⟩ := (assocFind_any_iff _ _).1 h
    rw [hcol] at hnone
    cases hnone
  rw [if_neg h, assocFind_append, hnone]
  simp

theorem assocFind_addParam_other (df : DF) (p : String × String) (c : String)
    (hc : c ≠ p.1) :
    assocFind (addParam df p).cols c = assocFind df.cols c := by
  rw [cols_addParam]
  by_cases h : df.cols.any fun q => q.1 = p.1
  · rw [if_pos h]
    exact assocFind_map_update df.cols p.1 _ c hc
  · rw [if_neg h, assocFind_append]
    have hne : ¬ p.1 = c := fun hh => hc hh.symm
    have hone : assocFind [(p.1, List.replicate df.nrows (some p.2))] c = none := by
      simp [hne]
    rw [hone]
    cases assocFind df.cols c <;> rfl

theorem assocFind_add_params_not_mem (df : DF)
    (params : List (String × String)) (c : String)
    (hc : ∀ p ∈ params, p.1 ≠ c) :
    assocFind (add_parameters_to_psv df params).cols c = assocFind df.cols c := by
  unfold add_parameters_to_psv
  induction params generalizing df with
  | nil => rfl
  | cons p rest ih =>
      simp only [List.foldl_cons]
      rw [ih _ fun q hq => hc q (List.mem_cons_of_mem _ hq)]
      exact assocFind_addParam_other _ _ _
        fun hh => hc p (List.mem_cons_self _ _) hh.symm

theorem add_params_step (df : DF) (p : String × String)
    (rest : List (String × String)) :
    add_parameters_to_psv df (p :: rest) =
      add_parameters_to_psv (addParam df p) rest := rfl

theorem mem_rest_key_ne (rest : List (String × String)) (c : String)
    (hval : c ∉ rest.map Prod.fst) : ∀ q ∈ rest, q.1 ≠ c := by
  intro q hq heq
  apply hval
  have hmm : q.1 ∈ rest.map Prod.fst := List.mem_map_of_mem Prod.fst hq
  rwa [heq] at hmm

/-- The column of a swept parameter that already exists, after the whole
annotation loop (parameter names are pairwise distinct — they are the keys
of a Python dict): the existing column, missing cells filled. -/
theorem assocFind_add_params_fill (df : DF)
    (params : List (String × String)) (c v : String)
    (col : List (Option String))
    (hmem : (c, v) ∈ params)
    (hnd : (params.map Prod.fst).Nodup)
    (hcol : assocFind df.cols c = some col) :
    assocFind (add_parameters_to_psv df params).cols c =
      some (fillna col v) := by
  induction params generalizing df col with
  | nil => simp at hmem
  | cons p rest ih =>
      simp only [List.map_cons, List.nodup_cons] at hnd
      rw [add_params_step]
      rcases List.mem_cons.1 hmem with h | h
      · subst h
        rw [assocFind_add_params_not_mem _ rest c (mem_rest_key_ne rest c hnd.1)]
        exact assocFind_addParam_self_fill df (c, v) col hcol
      · have hne : p.1 ≠ c := by
          intro heq
          apply hnd.1
          have hmm : c ∈ rest.map Prod.fst :=
            List.mem_map_of_mem Prod.fst h
          rwa [← heq] at hmm
        refine ih (addParam df p) col h hnd.2 ?_
        rw [assocFind_addParam_other _ _ _ fun hh => hne hh.symm]
        exact hcol

/-- The column of a swept parameter that does not yet exist, after the
whole annotation loop: a new column with every row set to the value. -/
theorem assocFind_add_params_new (df : DF)
    (params : List (String × String)) (c v : String)
    (hmem : (c, v) ∈ params)
    (hnd : (params.map Prod.fst).Nodup)
    (hnone : assocFind df.cols c = none) :
    assocFind (add_parameters_to_psv df params).cols c =
      some (List.replicate df.nrows (some v)) := by
  induction params generalizing df with
  | nil => simp at hmem
  | cons p rest ih =>
      simp only [List.map_cons, List.nodup_cons] at hnd
      rw [add_params_step]
      rcases List.mem_cons.1 hmem with h | h
      · subst h
        rw [assocFind_add_params_not_mem _ rest c (mem_rest_key_ne rest c hnd.1)]
        exact assocFind_addParam_self_new df (c, v) hnone
      · have hne : p.1 ≠ c := by
          intro heq
          apply hnd.1
          have hmm : c ∈ rest.map Prod.fst :=
            List.mem_map_of_mem Prod.fst h
          rwa [← heq] at hmm
        have := ih (addParam df p) h hnd.2 ?_
        · rwa [nrows_addParam] at this
        · rw [assocFind_addParam_other _ _ _ fun hh => hne hh.symm]
          exact hnone

/-! ### Idempotence of annotation -/

/-- Every entry of the column named `c` exists and has no missing cell. -/
def ColFilled (df : DF) (c : String) : Prop :=
  (df.cols.any fun q => q.1 = c) = true ∧
    ∀ q ∈ df.cols, q.1 = c → ∀ x ∈ q.2, x.isSome

theorem fillna_allSome (col : List (Option String)) (v : String) :
    ∀ x ∈ fillna col v, x.isSome := by
  intro x hx
  simp only [fillna, List.mem_map] at hx
  obtain ⟨cell, _, rfl⟩ := hx
  cases cell <;> rfl

theorem fillna_eq_self (col : List (Option String)) (v : String)
    (h : ∀ x ∈ col, x.isSome) : fillna col v = col := by
  induction col with
  | nil => rfl
  | cons cell rest ih =>
      have hcell := h cell (List.mem_cons_self _ _)
      cases cell with
      | none => cases hcell
      | some a =>
          simp only [fillna, List.map_cons, Option.getD_some]
          rw [show (List.map (fun cell => some (cell.getD v)) rest) =
                fillna rest v from rfl]
          rw [ih fun x hx => h x (List.mem_cons_of_mem _ hx)]

theorem any_key_map_update (l : List (String × List (Option String)))
    (k c : String) (f : List (Option String) → List (Option String)) :
    ((l.map fun q => if q.1 = k then (q.1, f q.2) else q).any fun q => q.1 = c)
      = (l.any fun q => q.1 = c) := by
  induction l with
  | nil => rfl
  | cons q rest ih =>
      by_cases hq : q.1 = k <;> simp [hq, ih]

theorem addParam_colFilled_self (df : DF) (p : String × String) :
    ColFilled (addParam df p) p.1 := by
  rw [ColFilled, cols_addParam]
  by_cases h : df.cols.any fun q => q.1 = p.1
  · rw [if_pos h]
    constructor
    · rw [any_key_map_update df.cols p.1 p.1 fun x => fillna x p.2]
      exact h
    · intro q hq hkey
      simp only [List.mem_map] at hq
      obtain ⟨q₀, hq₀, rfl⟩ := hq
      by_cases hq1 : q₀.1 = p.1
      · rw [if_pos hq1]
        exact fillna_allSome _ _
      · rw [if_neg hq1] at hkey ⊢
        exact absurd hkey hq1
  · rw [if_neg h]
    constructor
    · simp
    · intro q hq hkey
      rcases List.mem_append.1 hq with hl | hr
      · exact absurd ((List.any_eq_true).2 ⟨q, hl, by simp [hkey]⟩) h
      · simp only [List.mem_singleton] at hr
        subst hr
        intro x hx
        simp only [List.eq_of_mem_replicate hx]
        rfl

theorem addParam_preserves_colFilled (df : DF) (p : String × String)
    (c : String) (h : ColFilled df c) : ColFilled (addParam df p) c := by
  obtain ⟨hany, hfill⟩ := h
  rw [ColFilled, cols_addParam]
  by_cases hb : df.cols.any fun q => q.1 = p.1
  · rw [if_pos hb]
    refine ⟨by
      rw [any_key_map_update df.cols p.1 c fun x => fillna x p.2]
      exact hany, ?_⟩
    intro q hq hkey
    simp only [List.mem_map] at hq
    obtain ⟨q₀, hq₀, rfl⟩ := hq
    by_cases hq1 : q₀.1 = p.1
    · rw [if_pos hq1]
      exact fillna_allSome _ _
    · rw [if_neg hq1] at hkey ⊢
      exact hfill q₀ hq₀ hkey
  · rw [if_neg hb]
    refine ⟨by simp [List.any_append, hany], ?_⟩
    intro q hq hkey
    rcases List.mem_append.1 hq with hl | hr
    · exact hfill q hl hkey
    · simp only [List.mem_singleton] at hr
      subst hr
      intro x hx
      simp only [List.eq_of_mem_replicate hx]
      rfl

theorem map_eq_self_of_mem {α : Type} (l : List α) (f : α → α)
    (h : ∀ x ∈ l, f x = x) : l.map f = l := by
  induction l with
  | nil => rfl
  | cons x rest ih =>
      simp only [List.map_cons, h x (List.mem_cons_self _ _)]
      rw [ih fun y hy => h y (List.mem_cons_of_mem _ hy)]

theorem addParam_eq_self_of_colFilled (df : DF) (p : String × String)
    (h : ColFilled df p.1) : addParam df p = df := by
  obtain ⟨hany, hfill⟩ := h
  unfold addParam
  rw [if_pos hany]
  have hmap : (df.cols.map fun q =>
      if q.1 = p.1 then (q.1, fillna q.2 p.2) else q) = df.cols := by
    apply map_eq_self_of_mem
    intro q hq
    by_cases hq1 : q.1 = p.1
    · rw [if_pos hq1, fillna_eq_self _ _ (hfill q hq hq1)]
    · rw [if_neg hq1]
  rw [hmap]

theorem add_params_preserves_colFilled (df : DF)
    (params : List (String × String)) (c : String)
    (h : ColFilled df c) : ColFilled (add_parameters_to_psv df params) c := by
  induction params generalizing df with
  | nil => exact h
  | cons p rest ih =>
      rw [add_params_step]
      exact ih _ (addParam_preserves_colFilled df p c h)

theorem add_params_colFilled (df : DF) (params : List (String × String)) :
    ∀ p ∈ params, ColFilled (add_parameters_to_psv df params) p.1 := by
  induction params generalizing df with
  | nil => intro p hp; cases hp
  | cons q rest ih =>
      intro p hp
      rw [add_params_step]
      rcases List.mem_cons.1 hp with h | h
      · subst h
        exact add_params_preserves_colFilled _ rest p.1
          (addParam_colFilled_self df p)
      · exact ih _ p h

theorem add_params_eq_self_of_filled (df : DF)
    (params : List (String × String))
    (h : ∀ p ∈ params, ColFilled df p.1) :
    add_parameters_to_psv df params = df := by
  induction params with
  | nil => rfl
  | cons p rest ih =>
      rw [add_params_step,
        addParam_eq_self_of_colFilled df p (h p (List.mem_cons_self _ _))]
      exact ih fun q hq => h q (List.mem_cons_of_mem _ hq)

/-! ## The run driver (source lines 104–140)

Each iteration of the `for params in benchmark_params` loop:

* enters `with tempfile.NamedTemporaryFile(mode='w', delete=False) as
  merged_config_file:` — the file is created and its handle opened; because
  `delete=False`, leaving the `with` block only closes the handle, the
  directory entry is removed solely by the explicit `os.remove` call;
* writes and flushes the merged configuration;
* calls `genomics_benchmarks.main()` (the opaque executor) with
  `--label 'parametersweep_results'`.  If it raises, the exception
  propagates: the `with` block's `__exit__` closes the handle, `os.remove`
  is never reached (the file stays on disk), annotation is skipped and the
  sweep aborts;
* on normal return, closes and `os.remove`s the temporary file, then calls
  `add_parameters_to_psv('parametersweep_results.psv', params)`, which
  first checks `os.path.exists`, prints an error and returns when the
  result file is absent, and otherwise rewrites the file in place.

The executor is opaque: the model takes its outcome (normal return or
raised exception) and its effect on the result file as oracles.  The
result-file state is the `Option DF` content of the single path
`'parametersweep_results.psv'` (`none` = the file does not exist). -/

inductive ExecOutcome where
  | ok
  | raises
  deriving DecidableEq, Repr

structure IterationResult where
  tempCreated : Bool
  handleClosed : Bool
  tempRemoved : Bool
  raised : Bool
  execLabel : String
  annotatePath : Option String
  annotateReportedMissing : Bool
  deriving DecidableEq, Repr

/-- File-level `add_parameters_to_psv` (source lines 31–47): `none` when
the expected result file is absent — print the error and return, writing
nothing; otherwise the annotated table is written back.  The returned
`Bool` is whether the missing-file error was reported. -/
def add_parameters_to_psv_file (fs : Option DF)
    (params : List (String × String)) : Option DF × Bool :=
  match fs with
  | none => (none, true)
  | some df => (some (add_parameters_to_psv df params), false)

/-- One iteration of the run loop (source lines 105–140), given the
executor's outcome and the result-file state right after the executor
call. -/
def run_iteration (outcome : ExecOutcome) (fsAfterExec : Option DF)
    (params : List (String × String)) : IterationResult × Option DF :=
  let label := "parametersweep_results"
  match outcome with
  | .raises =>
      (⟨true, true, false, true, label, none, false⟩, fsAfterExec)
  | .ok =>
      let resultName := label ++ ".psv"
      let ann := add_parameters_to_psv_file fsAfterExec params
      (⟨true, true, true, false, label, some resultName, ann.2⟩, ann.1)

/-- The whole run loop: combinations in order, strictly sequential; a
raised executor exception propagates and aborts the sweep.  `eff` is the
oracle giving the result-file state after each executor call. -/
def run_sweep (combos : List (List (String × String)))
    (outcome : List (String × String) → ExecOutcome)
    (eff : List (String × String) → Option DF → Option DF)
    (fs : Option DF) : List IterationResult × Option DF :=
  match combos with
  | [] => ([], fs)
  | p :: rest =>
      let step := run_iteration (outcome p) (eff p fs) p
      if step.1.raised then ([step.1], step.2)
      else
        let tail := run_sweep rest outcome eff step.2
        (step.1 :: tail.1, tail.2)

/-! ## Pre-flight file checks (source lines 60–77, 98–101)

The base-configuration path is tested first; a missing file prints
`'Error: Base config file does not exist on filesystem. Exiting...'` and
calls `sys.exit(1)`.  Then the sweep-configuration path is tested; a
missing file prints
`'Error: Sweep config file does not exist on filesystem. Exiting...'` and
calls `sys.exit(1)`.  Only afterwards are the sweep parameters extracted
and the combinations enumerated. -/

def base_missing_message : String :=
  "Error: Base config file does not exist on filesystem. Exiting..."

def sweep_missing_message : String :=
  "Error: Sweep config file does not exist on filesystem. Exiting..."

structure ExitInfo where
  message : String
  code : Nat
  deriving DecidableEq, Repr

/-- The start of `__main__` up to the computation of
`benchmark_params_count`: existence checks in program order, then the
number of enumerated combinations.  `Except.error` is `sys.exit` with the
printed message and the exit status. -/
def main_model (baseExists sweepExists : Bool)
    (sweepRaw : List (String × List (String × String))) : Except ExitInfo Nat :=
  if baseExists then
    if sweepExists then
      Except.ok (product_params (extract_sweep_params (parseConfig sweepRaw))).length
    else Except.error ⟨sweep_missing_message, 1⟩
  else Except.error ⟨base_missing_message, 1⟩

/-- The exit status of a terminated `main_model`, if it terminated. -/
def main_exit_code : Except ExitInfo Nat → Option Nat
  | .error e => some e.code
  | .ok _ => none

/-! ## Claims -/

/-- C1 (counterexample): when the executor raises, the temporary
merged-configuration file is NOT removed at the iteration's scope exit —
`NamedTemporaryFile` is created with `delete=False` and the only removal
is the explicit `os.remove` after the executor call, which is never
reached.  This refutes removal "in every case". -/
theorem c1_counterexample :
    (run_iteration ExecOutcome.raises none []).1.tempRemoved = false := rfl

/-- C1 (amended): the temporary file's handle is closed at the iteration's
scope exit in every case, but its filesystem entry is removed exactly when
the executor call returns normally; when the executor raises, the file
stays on disk because the file is created with `delete=False` and removal
is a separate explicit step placed after the executor call. -/
theorem c1_temp_file_lifecycle (outcome : ExecOutcome) (fs : Option DF)
    (params : List (String × String)) :
    (run_iteration outcome fs params).1.handleClosed = true ∧
      ((run_iteration outcome fs params).1.tempRemoved = true ↔
        outcome = ExecOutcome.ok) := by
  cases outcome <;> simp [run_iteration]

/-- C3 (counterexample): a sweep spec whose candidate list repeats a value
(`'1,1'` splits into `['1', '1']`) makes `product_params` emit the same
combination twice, refuting "no duplicate combination emitted" as a
property of every spec. -/
theorem c3_counterexample :
    product_params [("p", ["1", "1"])] = [[("p", "1")], [("p", "1")]] ∧
      ¬ (product_params [("p", ["1", "1"])]).Nodup := by
  constructor
  · rfl
  · intro h
    simp [List.Nodup] at h

/-- C3 (amended): for every sweep spec with candidate-list lengths
(n₁, …, nₖ), `product_params` yields exactly ∏nᵢ combinations, each one a
total assignment over exactly the k parameter names in declaration order;
the zero-parameter spec yields exactly the one empty combination; and no
duplicate combination is emitted **provided** every candidate list has
pairwise-distinct values (a repeated candidate value repeats the
combination, as the counterexample shows). -/
theorem c3_enumeration_count_total_nodup :
    (∀ spec : List (String × List String),
        (product_params spec).length = (spec.map fun p => p.2.length).prod) ∧
      (∀ (spec : List (String × List String)) (c : List (String × String)),
        c ∈ product_params spec → c.map Prod.fst = spec.map Prod.fst) ∧
      product_params [] = [[]] ∧
      (∀ spec : List (String × List String),
        (∀ p ∈ spec, p.2.Nodup) → (product_params spec).Nodup) :=
  ⟨product_params_length, product_params_keys, rfl, product_params_nodup⟩

/-- C3 (witness): the amended theorem applied to the two-parameter spec
`mode = [fast, slow]`, `seed = [1, 2]`. -/
theorem c3_witness :
    (product_params [("mode", ["fast", "slow"]), ("seed", ["1", "2"])]).length
        = 4 ∧
      (product_params [("mode", ["fast", "slow"]), ("seed", ["1", "2"])]).Nodup := by
  constructor
  · exact (c3_enumeration_count_total_nodup.1
      [("mode", ["fast", "slow"]), ("seed", ["1", "2"])]).trans (by decide)
  · exact c3_enumeration_count_total_nodup.2.2.2
      [("mode", ["fast", "slow"]), ("seed", ["1", "2"])] (by decide)

theorem map_cons_single_product (k₁ a k₂ : String) (vs₂ : List String) :
    ((product_params [(k₂, vs₂)]).map fun c => (k₁, a) :: c) =
      vs₂.map fun v₂ => [(k₁, a), (k₂, v₂)] := by
  induction vs₂ with
  | nil => rfl
  | cons b t ih =>
      simp only [product_params_cons, List.flatMap_cons, List.map_append] at ih ⊢
      rw [ih]
      rfl

/-- C4: combinations are emitted in cartesian-product order with the
last-declared parameter varying fastest: a two-parameter spec flattens as
the standard nested loop (outer = first parameter), appending a parameter
at the end of any spec nests it innermost, and the concrete
`mode = [fast, slow]`, `seed = [1, 2]` spec yields
`(fast,1),(fast,2),(slow,1),(slow,2)`. -/
theorem c4_enumeration_order :
    (∀ (k₁ : String) (vs₁ : List String) (k₂ : String) (vs₂ : List String),
        product_params [(k₁, vs₁), (k₂, vs₂)] =
          vs₁.flatMap fun v₁ => vs₂.map fun v₂ => [(k₁, v₁), (k₂, v₂)]) ∧
      (∀ (init : List (String × List String)) (k : String) (vs : List String),
        product_params (init ++ [(k, vs)]) =
          (product_params init).flatMap fun c => vs.map fun v => c ++ [(k, v)]) ∧
      product_params [("mode", ["fast", "slow"]), ("seed", ["1", "2"])] =
        [[("mode", "fast"), ("seed", "1")], [("mode", "fast"), ("seed", "2")],
         [("mode", "slow"), ("seed", "1")], [("mode", "slow"), ("seed", "2")]] := by
  refine ⟨?_, product_params_snoc, by rfl⟩
  intro k₁ vs₁ k₂ vs₂
  induction vs₁ with
  | nil => rfl
  | cons a t ih =>
      simp only [product_params_cons, List.flatMap_cons] at ih ⊢
      rw [ih]
      congr 1
      exact map_cons_single_product k₁ a k₂ vs₂

/-- C6: `add_parameters_to_psv` is idempotent — running the annotation
loop twice with the same combination on the same table equals running it
once (fill-if-missing leaves every swept column without missing cells, so
the second pass changes nothing). -/
theorem c6_annotate_idempotent (df : DF) (params : List (String × String)) :
    add_parameters_to_psv (add_parameters_to_psv df params) params =
      add_parameters_to_psv df params :=
  add_params_eq_self_of_filled _ _ (add_params_colFilled df params)

/-- C8 (counterexample): a missing base-configuration path and a missing
sweep-configuration path terminate with the SAME exit status — both call
`sys.exit(1)` — so the two non-zero statuses are not distinct (only the
printed messages differ). -/
theorem c8_counterexample :
    main_exit_code (main_model false true []) = some 1 ∧
      main_exit_code (main_model true false []) = some 1 ∧
      main_exit_code (main_model false true []) =
        main_exit_code (main_model true false []) :=
  ⟨rfl, rfl, rfl⟩

/-- C8 (amended): a missing base-configuration-file path terminates
immediately — before any combination is enumerated, whatever the sweep
configuration holds — with non-zero exit status 1 and the base-specific
message; a missing sweep-configuration-file path likewise terminates
immediately with exit status 1 and a distinct message.  The messages are
distinct; the exit statuses are both 1, hence not distinct. -/
theorem c8_preflight_exits (se : Bool)
    (sweepRaw sweepRaw' : List (String × List (String × String))) :
    main_model false se sweepRaw = Except.error ⟨base_missing_message, 1⟩ ∧
      main_model true false sweepRaw' = Except.error ⟨sweep_missing_message, 1⟩ ∧
      base_missing_message ≠ sweep_missing_message ∧
      (1 : Nat) ≠ 0 := by
  exact ⟨by cases se <;> rfl, rfl, by decide, by decide⟩

/-- C8 (witness): the amended theorem applied with a concrete sweep
configuration. -/
theorem c8_witness :
    main_model false true [("benchmark", [("threads", "1,2")])] =
      Except.error ⟨base_missing_message, 1⟩ :=
  (c8_preflight_exits true [("benchmark", [("threads", "1,2")])] []).1

/-- C9: when the expected result file is absent, `add_parameters_to_psv`
reports the condition and returns without writing anything; the sweep is
not aborted — with the result file never appearing, every combination
still runs to completion, every annotation attempt reports the missing
file, and no result file is ever created. -/
theorem c9_missing_result_graceful (params : List (String × String))
    (combos : List (List (String × String))) :
    add_parameters_to_psv_file none params = (none, true) ∧
      (run_sweep combos (fun _ => ExecOutcome.ok) (fun _ fs => fs) none).1.length
        = combos.length ∧
      (run_sweep combos (fun _ => ExecOutcome.ok) (fun _ fs => fs) none).2
        = none ∧
      ∀ r ∈ (run_sweep combos (fun _ => ExecOutcome.ok) (fun _ fs => fs) none).1,
        r.annotateReportedMissing = true ∧ r.raised = false := by
  refine ⟨rfl, ?_, ?_, ?_⟩ <;>
    · induction combos with
      | nil => simp [run_sweep]
      | cons p rest ih =>
          simp_all [run_sweep, run_iteration, add_parameters_to_psv_file]

/-- C9 (witness): the theorem at the one-combination sweep
`[[(threads, 1)]]` with no result file. -/
theorem c9_witness :
    (run_sweep [[("threads", "1")]] (fun _ => ExecOutcome.ok) (fun _ fs => fs)
        none).1.length = 1 ∧
      (run_sweep [[("threads", "1")]] (fun _ => ExecOutcome.ok) (fun _ fs => fs)
        none).2 = none := by
  have h := c9_missing_result_graceful [("threads", "1")] [[("threads", "1")]]
  exact ⟨h.2.1, h.2.2.1⟩

/-- C10: every iteration of the run loop invokes the executor with the one
fixed label `'parametersweep_results'`, and every iteration that reaches
the annotation step annotates the one fixed result path
`'parametersweep_results.psv'` — identical across all combinations of the
sweep. -/
theorem c10_constant_label (combos : List (List (String × String)))
    (outcome : List (String × String) → ExecOutcome)
    (eff : List (String × String) → Option DF → Option DF) (fs : Option DF) :
    ∀ r ∈ (run_sweep combos outcome eff fs).1,
      r.execLabel = "parametersweep_results" ∧
        (r.raised = false → r.annotatePath = some "parametersweep_results.psv") := by
  induction combos generalizing fs with
  | nil => intro r hr; cases hr
  | cons p rest ih =>
      intro r hr
      simp only [run_sweep] at hr
      cases houtcome : outcome p with
      | raises =>
          rw [houtcome] at hr
          simp only [run_iteration, if_pos] at hr
          simp only [List.mem_singleton] at hr
          subst hr
          exact ⟨rfl, fun h => by cases h⟩
      | ok =>
          rw [houtcome] at hr
          simp only [run_iteration, if_neg] at hr
          rcases List.mem_cons.1 hr with h | h
          · subst h
            exact ⟨rfl, fun _ => rfl⟩
          · exact ih _ r h

/-- C10 (witness): the theorem at a concrete two-combination sweep with a
successful executor. -/
theorem c10_witness :
    (⟨true, true, true, false, "parametersweep_results",
        some "parametersweep_results.psv", true⟩ : IterationResult).execLabel
      = "parametersweep_results" := by
  have h := c10_constant_label [[("threads", "1")]] (fun _ => ExecOutcome.ok)
    (fun _ fs => fs) none
  exact (h ⟨true, true, true, false, "parametersweep_results",
    some "parametersweep_results.psv", true⟩ (by
      simp [run_sweep, run_iteration, add_parameters_to_psv_file])).1

/-- The `benchmark` section of the merged configuration is the base
section (empty if the base had none) with every combination entry set. -/
theorem merge_config_benchmark_section
    (base : List (String × List (String × String))) (hb : ConfigParsed base)
    (params : List (String × String)) :
    assocFind (merge_config base params) "benchmark" =
      some (params.foldl (fun s p => setOption s (optionxform p.1) p.2)
        ((assocFind base "benchmark").getD [])) := by
  unfold merge_config
  rw [assocFind_merge_fold, assocFind_ensure_benchmark,
    parseConfig_parsed base hb]
  rfl

/-- C2: merging a combination over a (parsed) base configuration gives
the combination's value for every swept key in the `benchmark` section
(the sweep value unconditionally overwrites any base value), leaves every
section other than `benchmark` exactly as in the base, and leaves every
`benchmark` option not named by the combination exactly as in the base.
The hypotheses hold for every parser-produced base configuration
(lower-case, duplicate-free keys; the combination's keys are a Python
dict's keys). -/
theorem c2_merge_semantics (base : List (String × List (String × String)))
    (hb : ConfigParsed base) (params : List (String × String))
    (hnd : (params.map fun p => optionxform p.1).Nodup) :
    (∀ p ∈ params,
        getOption (merge_config base params) "benchmark" p.1 = some p.2) ∧
      (∀ sect, sect ≠ "benchmark" →
        assocFind (merge_config base params) sect = assocFind base sect) ∧
      (∀ k, optionxform k ∉ params.map (fun p => optionxform p.1) →
        getOption (merge_config base params) "benchmark" k =
          getOption base "benchmark" k) := by
  refine ⟨?_, ?_, ?_⟩
  · intro p hp
    unfold getOption
    rw [merge_config_benchmark_section base hb params]
    have hp' : (p.1, p.2) ∈ params := by simpa using hp
    simpa using assocFind_foldl_setOption_mem _ params p.1 p.2 hp' hnd
  · intro sect hs
    unfold merge_config
    rw [assocFind_merge_fold_other _ _ _ hs,
      assocFind_ensure_benchmark_other _ _ hs, parseConfig_parsed base hb]
  · intro k hk
    unfold getOption
    rw [merge_config_benchmark_section base hb params]
    have hno : ∀ q ∈ params, optionxform q.1 ≠ optionxform k := by
      intro q hq heq
      exact hk (heq ▸ List.mem_map_of_mem (fun p => optionxform p.1) hq)
    simp only [Option.some_bind]
    rw [assocFind_foldl_setOption_not_mem _ params (optionxform k) hno]
    cases assocFind base "benchmark" <;> simp

/-- C2 (witness): the theorem at the concrete base
`{http: {port: 80}, benchmark: {threads: 8}}` and combination
`{threads: 1}`: the sweep value wins, the `http` section is untouched, and
the unswept key `other` is unchanged. -/
theorem c2_witness :
    getOption (merge_config
        [("http", [("port", "80")]), ("benchmark", [("threads", "8")])]
        [("threads", "1")]) "benchmark" "threads" = some "1" ∧
      assocFind (merge_config
        [("http", [("port", "80")]), ("benchmark", [("threads", "8")])]
        [("threads", "1")]) "http" =
        assocFind [("http", [("port", "80")]), ("benchmark", [("threads", "8")])]
          "http" ∧
      getOption (merge_config
        [("http", [("port", "80")]), ("benchmark", [("threads", "8")])]
        [("threads", "1")]) "benchmark" "other" =
        getOption [("http", [("port", "80")]), ("benchmark", [("threads", "8")])]
          "benchmark" "other" := by
  have h := c2_merge_semantics
    [("http", [("port", "80")]), ("benchmark", [("threads", "8")])]
    (by unfold ConfigParsed SectionParsed; decide) [("threads", "1")] (by decide)
  exact ⟨h.1 ("threads", "1") (by simp), h.2.1 "http" (by decide),
    h.2.2 "other" (by decide)⟩

theorem get?_fillna (col : List (Option String)) (v : String) (r : Nat) :
    (fillna col v).get? r = (col.get? r).map fun cell => some (cell.getD v) := by
  induction col generalizing r with
  | nil => rfl
  | cons cell rest ih =>
      cases r with
      | zero => rfl
      | succ r => exact ih r

theorem get?_replicate_lt {α : Type} (a : α) (n r : Nat) (h : r < n) :
    (List.replicate n a).get? r = some a := by
  induction n generalizing r with
  | zero => omega
  | succ n ih =>
      cases r with
      | zero => rfl
      | succ r => exact ih r (by omega)

/-- C5: for a swept parameter column that already exists in the result
table, annotation preserves every non-missing cell and fills every missing
cell with the swept value; for a swept parameter whose column does not
exist, annotation creates the column and sets every row to the swept
value.  (Parameter names are the keys of a Python dict, hence pairwise
distinct.) -/
theorem c5_annotate_cell_semantics (df : DF) (params : List (String × String))
    (c v : String) (hmem : (c, v) ∈ params)
    (hnd : (params.map Prod.fst).Nodup) :
    (∀ (r : Nat) (x : String), getCell df c r = some (some x) →
        getCell (add_parameters_to_psv df params) c r = some (some x)) ∧
      (∀ r : Nat, getCell df c r = some none →
        getCell (add_parameters_to_psv df params) c r = some (some v)) ∧
      (assocFind df.cols c = none → ∀ r : Nat, r < df.nrows →
        getCell (add_parameters_to_psv df params) c r = some (some v)) := by
  refine ⟨?_, ?_, ?_⟩
  · intro r x h
    unfold getCell at h ⊢
    cases hcol : assocFind df.cols c with
    | none => rw [hcol] at h; cases h
    | some col =>
        rw [hcol] at h
        simp only [Option.some_bind] at h
        rw [assocFind_add_params_fill df params c v col hmem hnd hcol]
        simp only [Option.some_bind]
        rw [get?_fillna, h]
        rfl
  · intro r h
    unfold getCell at h ⊢
    cases hcol : assocFind df.cols c with
    | none => rw [hcol] at h; cases h
    | some col =>
        rw [hcol] at h
        simp only [Option.some_bind] at h
        rw [assocFind_add_params_fill df params c v col hmem hnd hcol]
        simp only [Option.some_bind]
        rw [get?_fillna, h]
        rfl
  · intro hnone r hr
    unfold getCell
    rw [assocFind_add_params_new df params c v hmem hnd hnone]
    simp only [Option.some_bind]
    exact get?_replicate_lt _ _ _ hr

/-- C5 (witness): the theorem at the concrete two-row table with a
`threads` column `[7, missing]` and combination
`{threads: 1, mode: fast}`: the recorded `7` survives, the missing cell
becomes `1`, and a fresh `mode` column is `fast` everywhere. -/
theorem c5_witness :
    getCell (add_parameters_to_psv ⟨2, [("threads", [some "7", none])]⟩
        [("threads", "1"), ("mode", "fast")]) "threads" 0 = some (some "7") ∧
      getCell (add_parameters_to_psv ⟨2, [("threads", [some "7", none])]⟩
        [("threads", "1"), ("mode", "fast")]) "threads" 1 = some (some "1") ∧
      getCell (add_parameters_to_psv ⟨2, [("threads", [some "7", none])]⟩
        [("threads", "1"), ("mode", "fast")]) "mode" 1 = some (some "fast") := by
  have h := c5_annotate_cell_semantics ⟨2, [("threads", [some "7", none])]⟩
    [("threads", "1"), ("mode", "fast")] "threads" "1" (by simp) (by decide)
  have h2 := c5_annotate_cell_semantics ⟨2, [("threads", [some "7", none])]⟩
    [("threads", "1"), ("mode", "fast")] "mode" "fast" (by simp) (by decide)
  exact ⟨h.1 0 "7" (by decide), h.2.1 1 (by decide),
    h2.2.2 (by decide) 1 (by decide)⟩

/-- C7 (counterexample): option keys differing only in letter case are NOT
treated as distinct.  A sweep file key `THREADS` is extracted as
`threads`; a base key spelled `Threads` is flagged as overridden by a
sweep key spelled `THREADS`; and after merging, the base's `Threads = 8`
entry has been overwritten by the sweep value under the single conflated
key `threads` — under case-sensitive exact match all three would keep the
differently-cased keys apart. -/
theorem c7_counterexample :
    extract_sweep_params (parseConfig [("benchmark", [("THREADS", "1,2")])])
        = [("threads", ["1", "2"])] ∧
      is_base_key_overridden (parseConfig [("benchmark", [("Threads", "8")])])
        "benchmark" "THREADS" = true ∧
      getOption (merge_config (parseConfig [("benchmark", [("Threads", "8")])])
          [("threads", "1")]) "benchmark" "Threads" = some "1" ∧
      assocFind (merge_config (parseConfig [("benchmark", [("Threads", "8")])])
          [("threads", "1")]) "benchmark" = some [("threads", "1")] := by
  refine ⟨?_, ?_, ?_, ?_⟩ <;> decide

/-- C7 (amended): section-name comparison is case-sensitive exact string
match (parsing keeps section names verbatim, and a section named
`Benchmark` does not count as the `benchmark` section), but option-key
comparison during parsing, override detection and merging goes through
the parser's lowercasing `optionxform`: any two keys with the same
lowercase form — in particular two keys differing only in letter case —
are treated as the SAME key. -/
theorem c7_key_case_semantics :
    (∀ (c : List (String × List (String × String))) (sect k k' : String),
        optionxform k = optionxform k' →
          getOption c sect k = getOption c sect k') ∧
      (∀ (base : List (String × List (String × String))) (sect k k' : String),
        optionxform k = optionxform k' →
          is_base_key_overridden base sect k =
            is_base_key_overridden base sect k') ∧
      (∀ (c : List (String × List (String × String))) (k k' v : String),
        optionxform k = optionxform k' →
          set_benchmark_option c k v = set_benchmark_option c k' v) ∧
      optionxform "Threads" = optionxform "THREADS" ∧
      ("Threads" : String) ≠ "THREADS" ∧
      (∀ raw : List (String × List (String × String)),
        (parseConfig raw).map Prod.fst = raw.map Prod.fst) ∧
      ensure_benchmark [("Benchmark", [])] =
        [("Benchmark", []), ("benchmark", [])] := by
  refine ⟨?_, ?_, ?_, by decide, by decide, ?_, by decide⟩
  · intro c sect k k' h
    unfold getOption
    rw [h]
  · intro base sect k k' h
    unfold is_base_key_overridden
    rw [h]
  · intro c k k' v h
    unfold set_benchmark_option
    rw [h]
  · intro raw
    simp [parseConfig]

/-- C7 (witness): the amended theorem applied concretely: `Threads` and
`THREADS` query the same option of a parsed section. -/
theorem c7_witness :
    getOption [("benchmark", [("threads", "8")])] "benchmark" "Threads" =
      getOption [("benchmark", [("threads", "8")])] "benchmark" "THREADS" :=
  c7_key_case_semantics.1 [("benchmark", [("threads", "8")])] "benchmark"
    "Threads" "THREADS" (by decide)

end ParameterSweeper
